import Mathlib

/-!
Verification of the pair-screening core of `program/func_cointegration.py`.

Floating-point observations are modelled as rationals (`ℚ`); the one place
where IEEE `NaN` semantics is load-bearing (the half-life bounds check) uses
an explicit `PFloat` type with a `nan` constructor whose comparisons are
always false, as in IEEE 754.

The statsmodels library calls (`coint`, `adfuller`, and the final OLS
float/round step of the half-life) are library code, not code of this
repository; the repository's decision logic around their *results* is
embedded exactly, with the library outputs supplied as structures
(`CointRes`, `AdfRes`) or as oracle functions (`Oracles`).  The rolling
no-intercept OLS of `calculate_hedge_ratio_and_spread` and the
intercept OLS slope of `calculate_half_life` are embedded by their
closed-form least-squares formulas over ℚ.
-/

namespace PairsBot

set_option maxRecDepth 8192

/-- Result of the statsmodels Engle-Granger test `coint(series_1, series_2)`:
`coint_res[0]` is the test statistic, `coint_res[1]` the p-value, and
`coint_res[2]` the critical-value triple at the (1%, 5%, 10%) levels. -/
structure CointRes where
  t : ℚ
  p : ℚ
  crit : ℚ × ℚ × ℚ
  deriving Repr, DecidableEq

/-- Result of the statsmodels `adfuller(spread)` call as used by
`test_for_stationarity`: `result[0]` is the test statistic and `result[4]`
the dict of critical values keyed "1%", "5%", "10%". -/
structure AdfRes where
  stat : ℚ
  crit1 : ℚ
  crit5 : ℚ
  crit10 : ℚ
  deriving Repr, DecidableEq

/-- Decision logic of `calculate_cointegration` given the output of the
library call `coint`: `critical_value = coint_res[2][1]` (the middle entry
of the critical-value triple), `t_check = coint_t < critical_value`,
`coint_flag = 1 if p_value < 0.05 and t_check else 0`. -/
def calculate_cointegration (r : CointRes) : ℕ :=
  if r.p < 0.05 ∧ r.t < r.crit.2.1 then 1 else 0

/-- Decision logic of `test_for_stationarity` given the output of the
library call `adfuller`: starts with `is_stationary = False` and sets it to
`True` exactly when `test_statistic < critical_values["1%"]`. -/
def test_for_stationarity (r : AdfRes) : Bool :=
  decide (r.stat < r.crit1)

/-- Sum of pointwise products of two series (the `Σ x·y` building block of
the closed-form least-squares slopes). -/
def dot (xs ys : List ℚ) : ℚ :=
  (List.zipWith (· * ·) xs ys).sum

/-- The trailing window of width `w` ending at index `i`:
`l[i−w+1 .. i]` (with natural-number truncation at the left edge). -/
def window (w i : ℕ) (l : List ℚ) : List ℚ :=
  (l.drop (i + 1 - w)).take w

/-- Slope of the no-intercept ordinary-least-squares fit of `y` on `x`
(`RollingOLS` with a single exogenous column and no constant):
`Σ x·y / Σ x·x`; no finite coefficient exists when `Σ x·x = 0`
(degenerate window), modelled as `none`. -/
def noInterceptSlope (x y : List ℚ) : Option ℚ :=
  if dot x x = 0 then none else some (dot x y / dot x x)

/-- The fixed rolling window of `calculate_hedge_ratio_and_spread`
(`window=168` in the `RollingOLS` call). -/
def WINDOW : ℕ := 168

/-- The `RollingOLS(df[base_market], df[quote_market], window=w).fit().params`
column: at each index `i` with a full trailing window (`i ≥ w−1`), the
no-intercept OLS slope of the base window on the quote window; `none`
(NaN in the source) at the first `w−1` indices. -/
def rollingSlopes (w : ℕ) (base quote : List ℚ) : List (Option ℚ) :=
  (List.range base.length).map fun i =>
    if w ≤ i + 1 then noInterceptSlope (window w i quote) (window w i base) else none

/-- The `df["spread"]` column: pointwise `base − quote * hedge_ratio`, with
NaN (`none`) propagating from an undefined hedge ratio. -/
def spreadFrom (base quote : List ℚ) (hr : List (Option ℚ)) : List (Option ℚ) :=
  (List.range base.length).map fun i =>
    (hr.getD i none).map fun h => base.getD i 0 - quote.getD i 0 * h

/-- `calculate_hedge_ratio_and_spread`: the returned
`df[["hedge_ratio", "spread"]]` pair of columns. -/
def calculate_hedge_ratio_and_spread (base quote : List ℚ) :
    List (Option ℚ) × List (Option ℚ) :=
  let hr := rollingSlopes WINDOW base quote
  (hr, spreadFrom base quote hr)

/-- `spread_lag`: `df_spread.spread.shift(1)` followed by
`spread_lag.iloc[0] = spread_lag.iloc[1]`.  The shift puts NaN at index 0 and
`S[i−1]` at every later index `i`; the fill then overwrites index 0 with
`spread_lag[1] = S[0]`.  (For a series of length < 2 the source's
`iloc[1]` raises; such inputs are outside the hypotheses used below.) -/
def spreadLag (S : List ℚ) : List ℚ :=
  match S with
  | [] => []
  | a :: t => a :: (a :: t).dropLast

/-- `spread_ret` before its boundary fill: the pointwise difference
`df_spread.spread - spread_lag` (taken after `spread_lag`'s own fill). -/
def spreadRetRaw (S : List ℚ) : List ℚ :=
  List.zipWith (fun a b => a - b) S (spreadLag S)

/-- `spread_ret` after `spread_ret.iloc[0] = spread_ret.iloc[1]`. -/
def spreadRet (S : List ℚ) : List ℚ :=
  match spreadRetRaw S with
  | _ :: b :: t => b :: b :: t
  | l => l

/-- Denominator `n·Σx² − (Σx)²` of the simple-regression slope; it is zero
exactly when the regressor has zero variance (degenerate regression). -/
def olsSlopeDen (x : List ℚ) : ℚ :=
  (x.length : ℚ) * dot x x - x.sum ^ 2

/-- Slope coefficient (`params[1]`) of the ordinary-least-squares fit of `y`
on `sm.add_constant(x)`: the closed-form simple-regression slope
`(n·Σxy − Σx·Σy) / (n·Σx² − (Σx)²)`, valid whenever the denominator is
nonzero. -/
def olsSlope (x y : List ℚ) : ℚ :=
  ((x.length : ℚ) * dot x y - x.sum * y.sum) / olsSlopeDen x

/-- The slope `res.params[1]` fitted inside `calculate_half_life`. -/
def halfLifeBeta (S : List ℚ) : ℚ :=
  olsSlope (spreadLag S) (spreadRet S)

/-- `calculate_half_life`: `round(-np.log(2) / res.params[1], 0)`.  The
argument of `round` is `−ln 2 / β` with `β` rational; being irrational it is
never a rounding tie, so Python's round-half-to-even and `round` agree. -/
noncomputable def calculate_half_life (S : List ℚ) : ℤ :=
  round (-(Real.log 2) / ((halfLifeBeta S : ℚ) : ℝ))

/-- Lag series exactly as the specification words it: `S_lag[i] = S[i-1]`
for `i ≥ 1`, with the boundary fill `S_lag[0] := S_lag[1]` (that is,
`S[0]`). -/
def specLag (S : List ℚ) : List ℚ :=
  (List.range S.length).map fun i =>
    if i = 0 then S.getD 0 0 else S.getD (i - 1) 0

/-- Difference series exactly as the specification words it:
`ΔS[i] = S[i] − S_lag[i]` for `i ≥ 1`, with the boundary fill
`ΔS[0] := ΔS[1]`. -/
def specRet (S : List ℚ) : List ℚ :=
  (List.range S.length).map fun i =>
    if i = 0 then S.getD 1 0 - (specLag S).getD 1 0
    else S.getD i 0 - (specLag S).getD i 0

/-- A Python float restricted to what the screening pipeline needs: either a
(rational-valued) number or NaN.  IEE 754 comparisons with NaN are false. -/
inductive PFloat where
  | nan : PFloat
  | num (q : ℚ) : PFloat
  deriving Repr, DecidableEq

/-- Strict `<` on Python floats: any comparison involving NaN is false. -/
def pfLt : PFloat → PFloat → Bool
  | .num a, .num b => decide (a < b)
  | _, _ => false

/-- The half-life bounds test `half_life < 0 or half_life > 24` guarding the
`continue` in `store_cointegration_results` (`a > b` on floats is `b < a`,
false whenever either side is NaN). -/
def boundsDiscard (h : PFloat) : Bool :=
  pfLt h (.num 0) || pfLt (.num 24) h

/-- One column of `df_market_prices`: a symbol and its aligned price
series. -/
structure Market where
  name : String
  series : List ℚ
  deriving Repr, DecidableEq

/-- One row appended to `criteria_met_pairs`. -/
structure ScreeningResult where
  base_market : String
  quote_market : String
  half_life : PFloat
  deriving Repr, DecidableEq

/-- Exceptions a per-pair evaluation can raise (error taxonomy of the spec,
plus the KeyError raised by sorting a column-less DataFrame). -/
inductive PairErr where
  | insufficientData
  | degenerateRegression
  | numericConversion
  | keyError
  deriving Repr, DecidableEq

/-- The library statistical calls the pipeline makes (`coint`, `adfuller`,
and the float half-life computation): library code outside this repository,
supplied as oracles.  Each may raise, as the real calls do on degenerate or
too-short input. -/
structure Oracles where
  coint : List ℚ → List ℚ → Except PairErr CointRes
  adf : List ℚ → Except PairErr AdfRes
  halfLife : List ℚ → Except PairErr PFloat

/-- `coint_pair_df.dropna()` restricted to the spread column: the base and
quote columns are finite floats, and the hedge-ratio entry is NaN exactly
when the spread entry is, so dropping NaN rows keeps exactly the defined
spread values. -/
def dropNone (l : List (Option ℚ)) : List ℚ :=
  l.filterMap id

/-- The body of the inner loop of `store_cointegration_results` for one
candidate pair: each `continue` is an early `return none` (criteria not
met); a library exception propagates — the source has no try/except. -/
def evalPair (orc : Oracles) (b q : Market) :
    Except PairErr (Option ScreeningResult) := do
  let r ← orc.coint b.series q.series
  if calculate_cointegration r ≠ 1 then
    return none
  let a ← orc.adf (dropNone (calculate_hedge_ratio_and_spread b.series q.series).2)
  if ¬ test_for_stationarity a then
    return none
  let h ← orc.halfLife (dropNone (calculate_hedge_ratio_and_spread b.series q.series).2)
  if boundsDiscard h then
    return none
  return some ⟨b.name, q.name, h⟩

/-- The pair enumeration
`for index, base in enumerate(markets[:-1]): for quote in markets[index+1:]`:
the head paired with every later element, then recurse on the tail. -/
def pairsOf {α : Type} : List α → List (α × α)
  | [] => []
  | m :: rest => (rest.map fun q => (m, q)) ++ pairsOf rest

/-- The double loop of `store_cointegration_results`: evaluate each candidate
pair in enumeration order, appending each emitted row to the accumulator; a
pair's exception propagates immediately (no try/except in the source). -/
def evalAll (orc : Oracles) :
    List (Market × Market) → List ScreeningResult →
    Except PairErr (List ScreeningResult)
  | [], acc => .ok acc
  | (b, q) :: rest, acc => do
      let r ← evalPair orc b q
      match r with
      | none => evalAll orc rest acc
      | some x => evalAll orc rest (acc ++ [x])

/-- Ordering used to sort rows by half-life; NaN sorts last
(pandas `na_position="last"`).  The source's `sort_values` uses numpy's
default quicksort, whose ordering among equal keys is unspecified; this
definition fixes one sorted order and no theorem below depends on how it
orders equal keys. -/
def pfSortLe (a b : PFloat) : Bool :=
  match a, b with
  | .num x, .num y => decide (x ≤ y)
  | .num _, .nan => true
  | .nan, _ => false

/-- Insert a row into a list sorted by half-life. -/
def insertByHL (x : ScreeningResult) :
    List ScreeningResult → List ScreeningResult
  | [] => [x]
  | y :: t =>
      if pfSortLe x.half_life y.half_life then x :: y :: t
      else y :: insertByHL x t

/-- Sort the accumulated rows by half-life
(`df_criteria_met.sort_values(by="half_life")`). -/
def sortByHL : List ScreeningResult → List ScreeningResult
  | [] => []
  | x :: t => insertByHL x (sortByHL t)

/-- `store_cointegration_results`: run every candidate pair, then build and
sort the result DataFrame.  `pd.DataFrame([])` of an empty row list has no
columns at all, so `sort_values(by="half_life")` raises `KeyError` — modelled
by throwing `keyError`; otherwise the report is sorted, saved, and the
string `"saved"` returned. -/
def store_cointegration_results (orc : Oracles) (ms : List Market) :
    Except PairErr (List ScreeningResult × String) := do
  let res ← evalAll orc (pairsOf ms) []
  if res.isEmpty then
    throw PairErr.keyError
  return (sortByHL res, "saved")

/-- A coint result that passes the cointegration decision rule:
`p = 0 < 0.05` and `t = −10` below the middle critical value `−3`. -/
def passCoint : CointRes := ⟨-10, 0, (-4, -3, -2)⟩

/-- A coint result that fails the cointegration decision rule (`p = 1`). -/
def failCoint : CointRes := ⟨0, 1, (-4, -3, -2)⟩

/-- An ADF result that passes the stationarity decision rule. -/
def passAdf : AdfRes := ⟨-5, -4, -3, -2⟩

/-- Concrete markets for closed-instance theorems. -/
def mkA : Market := ⟨"A", [0, 0]⟩

/-- Second concrete market. -/
def mkB : Market := ⟨"B", [1, 1]⟩

/-- Third concrete market. -/
def mkC : Market := ⟨"C", [2, 2]⟩

/-- Oracle under which no pair is cointegrated. -/
def oracleAllFail : Oracles :=
  ⟨fun _ _ => .ok failCoint, fun _ => .ok passAdf, fun _ => .ok (.num 5)⟩

/-- Oracle under which the Engle-Granger call raises on the pair of series
starting with 0 and 1 (markets A and B) and passes every other test. -/
def oracleFirstErr : Oracles :=
  ⟨fun s1 s2 =>
      if s1.head? = some 0 ∧ s2.head? = some 1 then .error .insufficientData
      else .ok passCoint,
   fun _ => .ok passAdf, fun _ => .ok (.num 5)⟩

/-- Oracle whose half-life comes out exactly 24. -/
def oracleHL24 : Oracles :=
  ⟨fun _ _ => .ok passCoint, fun _ => .ok passAdf, fun _ => .ok (.num 24)⟩

/-- Oracle whose half-life comes out NaN. -/
def oracleHLnan : Oracles :=
  ⟨fun _ _ => .ok passCoint, fun _ => .ok passAdf, fun _ => .ok .nan⟩

/-- C1: `calculate_cointegration` returns flag 1 iff the p-value is strictly
below 0.05 and the test statistic is strictly below the middle (5%) entry of
the critical-value triple; otherwise it returns 0. -/
theorem calculate_cointegration_flag_iff (r : CointRes) :
    (calculate_cointegration r = 1 ↔ r.p < 0.05 ∧ r.t < r.crit.2.1) ∧
    (calculate_cointegration r = 0 ↔ ¬(r.p < 0.05 ∧ r.t < r.crit.2.1)) := by
  unfold calculate_cointegration
  by_cases h : r.p < 0.05 ∧ r.t < r.crit.2.1 <;> simp [h]

/-- C2: `test_for_stationarity` returns `true` iff the ADF test statistic is
strictly below the 1% critical value; in particular a statistic lying between
the 1% and the 5% critical values yields `false`. -/
theorem test_for_stationarity_iff (r : AdfRes) :
    (test_for_stationarity r = true ↔ r.stat < r.crit1) ∧
    (r.crit1 < r.stat → r.stat < r.crit5 → test_for_stationarity r = false) := by
  constructor
  · simp [test_for_stationarity]
  · intro h1 _
    simp [test_for_stationarity]
    linarith

/-- Witness for C2 at a concrete ADF result with the statistic strictly
between the 1% and 5% critical values. -/
theorem test_for_stationarity_iff_witness :
    test_for_stationarity ⟨-3, -(7/2), -(5/2), -2⟩ = false :=
  (test_for_stationarity_iff ⟨-3, -(7/2), -(5/2), -2⟩).2 (by norm_num) (by norm_num)

/-- Indexing a map over `List.range`. -/
theorem getElem?_map_range {α : Type} (f : ℕ → α) {n i : ℕ} (h : i < n) :
    ((List.range n).map f)[i]? = some (f i) := by
  rw [List.getElem?_map, List.getElem?_range h]
  rfl

/-- Counting the indices of `List.range n` at or above a threshold. -/
theorem countP_range_le (k n : ℕ) :
    (List.range n).countP (fun i => decide (k ≤ i)) = n - k := by
  induction n with
  | zero => simp
  | succ n ih =>
      rw [List.range_succ, List.countP_append, ih]
      by_cases h : k ≤ n
      · simp only [List.countP_cons, List.countP_nil, h]
        simp
        omega
      · simp only [List.countP_cons, List.countP_nil, h]
        simp [h]
        omega

/-- C3: `calculate_hedge_ratio_and_spread` uses the fixed window `W = 168`;
on aligned series of length `N ≥ W` whose quote windows are nondegenerate it
defines exactly `N − W + 1` hedge-ratio values, leaves the first `W − 1`
indices undefined, computes each defined hedge ratio as the no-intercept OLS
slope `Σ quote·base / Σ quote²` over the trailing window, and computes the
spread pointwise as `base[i] − hedge_ratio[i] · quote[i]` wherever the hedge
ratio is defined. -/
theorem hedge_ratio_and_spread_spec (base quote : List ℚ)
    (haligned : quote.length = base.length)
    (hN : WINDOW ≤ base.length)
    (hnd : ∀ i ∈ List.range base.length, WINDOW - 1 ≤ i →
      dot (window WINDOW i quote) (window WINDOW i quote) ≠ 0) :
    WINDOW = 168 ∧
    (calculate_hedge_ratio_and_spread base quote).1.countP (fun o => o.isSome)
        = base.length - WINDOW + 1 ∧
    (∀ i, i < WINDOW - 1 →
      (calculate_hedge_ratio_and_spread base quote).1[i]? = some none) ∧
    (∀ i, WINDOW - 1 ≤ i → i < base.length →
      (calculate_hedge_ratio_and_spread base quote).1[i]?
        = some (some (dot (window WINDOW i quote) (window WINDOW i base)
            / dot (window WINDOW i quote) (window WINDOW i quote)))) ∧
    (∀ i h, i < base.length →
      (calculate_hedge_ratio_and_spread base quote).1[i]? = some (some h) →
      (calculate_hedge_ratio_and_spread base quote).2[i]?
        = some (some (base.getD i 0 - h * quote.getD i 0))) := by
  refine ⟨rfl, ?_, ?_, ?_, ?_⟩
  · show (rollingSlopes WINDOW base quote).countP _ = _
    unfold rollingSlopes
    rw [List.countP_map]
    rw [List.countP_congr (q := fun i => decide (WINDOW - 1 ≤ i)) ?_]
    · rw [countP_range_le]
      simp only [WINDOW] at hN ⊢
      omega
    · intro x hx
      by_cases h : WINDOW ≤ x + 1
      · have hx' : WINDOW - 1 ≤ x := by omega
        have hne := hnd x hx hx'
        simp [h, noInterceptSlope, hne, hx']
      · have hx' : ¬ (WINDOW - 1 ≤ x) := by
          simp only [WINDOW] at h ⊢
          omega
        simp [h, hx']
  · intro i hi
    have hiN : i < base.length := by
      simp only [WINDOW] at hi hN
      omega
    show (rollingSlopes WINDOW base quote)[i]? = some none
    unfold rollingSlopes
    rw [getElem?_map_range _ hiN]
    have h : ¬ (WINDOW ≤ i + 1) := by
      simp only [WINDOW] at hi ⊢
      omega
    simp [h]
  · intro i hi hiN
    show (rollingSlopes WINDOW base quote)[i]? = _
    unfold rollingSlopes
    rw [getElem?_map_range _ hiN]
    have h : WINDOW ≤ i + 1 := by
      simp only [WINDOW] at hi ⊢
      omega
    have hne := hnd i (List.mem_range.mpr hiN) hi
    simp [h, noInterceptSlope, hne]
  · intro i h hiN hhr
    show (spreadFrom base quote (rollingSlopes WINDOW base quote))[i]? = _
    have hget : (rollingSlopes WINDOW base quote).getD i none = some h := by
      rw [List.getD_eq_getElem?_getD]
      have : (rollingSlopes WINDOW base quote)[i]? = some (some h) := hhr
      rw [this]
      rfl
    unfold spreadFrom
    rw [getElem?_map_range _ hiN, hget]
    simp [mul_comm]

/-- The `Σ x·x` self-product of a constant-one series of length `n`. -/
theorem dot_replicate_one (n : ℕ) :
    dot (List.replicate n (1 : ℚ)) (List.replicate n (1 : ℚ)) = n := by
  unfold dot
  rw [List.zipWith_replicate]
  simp

/-- Witness for C3 on a concrete pair of aligned constant series of length
168: the hedge-ratio column has exactly `168 − 168 + 1 = 1` defined entry. -/
theorem hedge_ratio_and_spread_spec_witness :
    (calculate_hedge_ratio_and_spread (List.replicate 168 (1 : ℚ))
        (List.replicate 168 (1 : ℚ))).1.countP (fun o => o.isSome)
      = (List.replicate 168 (1 : ℚ)).length - WINDOW + 1 :=
  (hedge_ratio_and_spread_spec (List.replicate 168 (1 : ℚ))
      (List.replicate 168 (1 : ℚ)) rfl (by simp [WINDOW])
      (by
        intro i hi h167
        have h168 : i < (List.replicate 168 (1 : ℚ)).length := List.mem_range.mp hi
        simp only [List.length_replicate] at h168
        simp only [WINDOW] at h167
        have hi167 : i = 167 := by omega
        subst hi167
        have hwin : window WINDOW 167 (List.replicate 168 (1 : ℚ))
            = List.replicate 168 (1 : ℚ) := by
          unfold window WINDOW
          norm_num
        rw [hwin, dot_replicate_one]
        norm_num)).2.1

/-- The filled lag series has the same length as its input. -/
theorem length_spreadLag (S : List ℚ) : (spreadLag S).length = S.length := by
  cases S with
  | nil => rfl
  | cons a t => simp [spreadLag]

/-- Pointwise description of `spread_lag`: entry 0 is `S[0]` (the boundary
fill) and entry `i ≥ 1` is `S[i−1]`. -/
theorem spreadLag_getElem? (S : List ℚ) (h2 : 2 ≤ S.length) (i : ℕ) :
    (spreadLag S)[i]? =
      if i < S.length then
        some (if i = 0 then S.getD 0 0 else S.getD (i - 1) 0)
      else none := by
  cases S with
  | nil => simp at h2
  | cons a t =>
      cases i with
      | zero => simp [spreadLag]
      | succ j =>
          simp only [spreadLag, List.getElem?_cons_succ, List.getElem?_dropLast]
          by_cases hj : j < t.length
          · have hj' : j < (a :: t).length := by simp; omega
            rw [if_pos (by simpa using hj),
              if_pos (show j + 1 < (a :: t).length by simp; omega),
              List.getElem?_eq_getElem hj']
            simp [Nat.add_sub_cancel, List.getD_eq_getElem _ _ hj',
              List.getElem?_eq_getElem hj']
          · rw [if_neg (by simpa using hj), if_neg (by simp; omega)]

/-- Pointwise description of the specification's lag series. -/
theorem specLag_getElem? (S : List ℚ) (i : ℕ) :
    (specLag S)[i]? =
      if i < S.length then
        some (if i = 0 then S.getD 0 0 else S.getD (i - 1) 0)
      else none := by
  unfold specLag
  by_cases h : i < S.length
  · rw [getElem?_map_range _ h, if_pos h]
  · rw [List.getElem?_eq_none (by simp; omega), if_neg h]

/-- The source's filled lag series is exactly the specification's. -/
theorem spreadLag_eq_specLag (S : List ℚ) (h2 : 2 ≤ S.length) :
    spreadLag S = specLag S := by
  apply List.ext_getElem?
  intro i
  rw [spreadLag_getElem? S h2, specLag_getElem?]

/-- The raw difference series has the same length as its input. -/
theorem length_spreadRetRaw (S : List ℚ) :
    (spreadRetRaw S).length = S.length := by
  simp [spreadRetRaw, List.length_zipWith, length_spreadLag]

/-- Pointwise description of the raw difference series. -/
theorem spreadRetRaw_getElem? (S : List ℚ) (i : ℕ) (h : i < S.length) :
    (spreadRetRaw S)[i]? = some (S.getD i 0 - (spreadLag S).getD i 0) := by
  have hlag : i < (spreadLag S).length := by rw [length_spreadLag]; exact h
  unfold spreadRetRaw
  rw [List.getElem?_zipWith, List.getElem?_eq_getElem h,
    List.getElem?_eq_getElem hlag, List.getD_eq_getElem _ _ h,
    List.getD_eq_getElem _ _ hlag]

/-- The source's filled difference series is exactly the specification's:
`ΔS[i] = S[i] − S_lag[i]` with `ΔS[0] := ΔS[1]`. -/
theorem spreadRet_eq_specRet (S : List ℚ) (h2 : 2 ≤ S.length) :
    spreadRet S = specRet S := by
  have hlen : (spreadRetRaw S).length = S.length := length_spreadRetRaw S
  rcases hraw : spreadRetRaw S with _ | ⟨r0, _ | ⟨r1, rt⟩⟩
  · rw [hraw] at hlen
    simp at hlen
    omega
  · rw [hraw] at hlen
    simp at hlen
    omega
  · have hr1 : (spreadRetRaw S)[1]? = some r1 := by rw [hraw]; simp
    rw [spreadRetRaw_getElem? S 1 (by omega)] at hr1
    have hrtlen : rt.length + 2 = S.length := by
      rw [hraw] at hlen
      simpa using hlen
    have hret : spreadRet S = r1 :: r1 :: rt := by
      unfold spreadRet
      rw [hraw]
    rw [hret]
    apply List.ext_getElem?
    intro i
    have hspec : ∀ j, (specRet S)[j]? =
        if j < S.length then
          some (if j = 0 then S.getD 1 0 - (specLag S).getD 1 0
            else S.getD j 0 - (specLag S).getD j 0)
        else none := by
      intro j
      unfold specRet
      by_cases h : j < S.length
      · rw [getElem?_map_range _ h, if_pos h]
      · rw [List.getElem?_eq_none (by simp; omega), if_neg h]
    rw [hspec]
    have hlageq := spreadLag_eq_specLag S h2
    match i with
    | 0 =>
        rw [if_pos (by omega)]
        simp only [List.getElem?_cons_zero, if_pos rfl]
        rw [← hlageq]
        exact (Option.some_inj.mpr (Option.some_inj.mp hr1)).symm ▸ hr1.symm ▸ rfl
    | 1 =>
        rw [if_pos (by omega)]
        simp only [List.getElem?_cons_succ, List.getElem?_cons_zero]
        rw [← hlageq]
        rw [Option.some_inj.mp hr1]
        simp
    | (j + 2) =>
        have hj : (r1 :: r1 :: rt)[j + 2]? = rt[j]? := by
          simp only [List.getElem?_cons_succ]
        have hj' : (spreadRetRaw S)[j + 2]? = rt[j]? := by
          rw [hraw]
          simp only [List.getElem?_cons_succ]
        rw [hj, ← hj']
        by_cases h : j + 2 < S.length
        · rw [spreadRetRaw_getElem? S _ h, if_pos h, ← hlageq]
          simp
        · rw [List.getElem?_eq_none (by omega), if_neg h]

/-- C4: `calculate_half_life` builds the lag series `S_lag[i] = S[i−1]` with
boundary fill `S_lag[0] := S_lag[1]`, the difference series `ΔS = S − S_lag`
with the same boundary fill at index 0, regresses `ΔS` on `S_lag` with an
intercept taking the slope `β`, and returns `round(−ln 2 / β)`. -/
theorem calculate_half_life_spec (S : List ℚ) (h2 : 2 ≤ S.length)
    (hden : olsSlopeDen (spreadLag S) ≠ 0) :
    spreadLag S = specLag S ∧
    spreadRet S = specRet S ∧
    calculate_half_life S
      = round (-(Real.log 2) / ((olsSlope (specLag S) (specRet S) : ℚ) : ℝ)) := by
  refine ⟨spreadLag_eq_specLag S h2, spreadRet_eq_specRet S h2, ?_⟩
  unfold calculate_half_life halfLifeBeta
  rw [spreadLag_eq_specLag S h2, spreadRet_eq_specRet S h2]

/-- Witness for C4 at the concrete spread series `[0, 1, 0, 1]`, whose lag
series `[0, 0, 1, 0]` has nonzero variance. -/
theorem calculate_half_life_spec_witness :
    spreadLag [(0 : ℚ), 1, 0, 1] = specLag [(0 : ℚ), 1, 0, 1] ∧
    spreadRet [(0 : ℚ), 1, 0, 1] = specRet [(0 : ℚ), 1, 0, 1] ∧
    calculate_half_life [(0 : ℚ), 1, 0, 1]
      = round (-(Real.log 2) / ((olsSlope (specLag [(0 : ℚ), 1, 0, 1])
          (specRet [(0 : ℚ), 1, 0, 1]) : ℚ) : ℝ)) :=
  calculate_half_life_spec [0, 1, 0, 1] (by norm_num)
    (by norm_num [olsSlopeDen, spreadLag, dot, List.dropLast])

/-- `pairsOf` on any list of `n` symbols yields `C(n,2)` candidate pairs. -/
theorem pairsOf_length {α : Type} (ms : List α) :
    (pairsOf ms).length = ms.length.choose 2 := by
  induction ms with
  | nil => rfl
  | cons m rest ih =>
      simp only [pairsOf, List.length_append, List.length_map, ih,
        List.length_cons, Nat.choose_succ_succ, Nat.choose_one_right]

/-- `pairsOf` commutes with relabelling the symbols. -/
theorem pairsOf_map {α β : Type} (f : α → β) (ms : List α) :
    pairsOf (ms.map f) = (pairsOf ms).map (Prod.map f f) := by
  induction ms with
  | nil => rfl
  | cons m rest ih =>
      simp only [List.map_cons, pairsOf, ih, List.map_append, List.map_map]
      rfl

/-- The candidate pairs over indices `0..n−1` are exactly the pairs
`(i, j)` with `i < j < n`. -/
theorem pairsOf_range_mem (n : ℕ) (i j : ℕ) :
    (i, j) ∈ pairsOf (List.range n) ↔ i < j ∧ j < n := by
  induction n generalizing i j with
  | zero => simp [pairsOf]
  | succ n ih =>
      rw [List.range_succ_eq_map]
      show (i, j) ∈ (List.map Nat.succ (List.range n)).map (fun q => (0, q))
          ++ pairsOf (List.map Nat.succ (List.range n)) ↔ _
      rw [List.mem_append]
      constructor
      · rintro (h | h)
        · obtain ⟨q, hq, heq⟩ := List.mem_map.mp h
          obtain ⟨k, hk, hk'⟩ := List.mem_map.mp hq
          injection heq with h1 h2
          rw [List.mem_range] at hk
          omega
        · rw [pairsOf_map] at h
          obtain ⟨⟨a, b⟩, hab, heq⟩ := List.mem_map.mp h
          have hab' := (ih a b).mp hab
          simp only [Prod.map_apply, Prod.mk.injEq] at heq
          omega
      · rintro ⟨hij, hjn⟩
        by_cases hi : i = 0
        · subst hi
          refine Or.inl (List.mem_map.mpr ⟨j,
            List.mem_map.mpr ⟨j - 1, List.mem_range.mpr (by omega), by omega⟩, rfl⟩)
        · refine Or.inr ?_
          rw [pairsOf_map]
          refine List.mem_map.mpr
            ⟨(i - 1, j - 1), (ih _ _).mpr ⟨by omega, by omega⟩, ?_⟩
          simp only [Prod.map_apply, Prod.mk.injEq]
          omega

/-- No candidate pair of indices is enumerated twice. -/
theorem pairsOf_range_nodup (n : ℕ) : (pairsOf (List.range n)).Nodup := by
  induction n with
  | zero => simp [pairsOf]
  | succ n ih =>
      rw [List.range_succ_eq_map]
      show ((List.map Nat.succ (List.range n)).map (fun q => (0, q))
          ++ pairsOf (List.map Nat.succ (List.range n))).Nodup
      apply List.Nodup.append
      · apply List.Nodup.map
        · intro a b hab
          simpa using congrArg Prod.snd hab
        · exact (List.nodup_range n).map Nat.succ_injective
      · rw [pairsOf_map]
        apply ih.map
        intro p q hpq
        obtain ⟨p1, p2⟩ := p
        obtain ⟨q1, q2⟩ := q
        simp only [Prod.map_apply, Prod.mk.injEq] at hpq
        simp only [Prod.mk.injEq]
        omega
      · intro p hp hq
        obtain ⟨q, _, hq'⟩ := List.mem_map.mp hp
        rw [pairsOf_map] at hq
        obtain ⟨⟨a, b⟩, _, heq⟩ := List.mem_map.mp hq
        rw [← hq'] at heq
        simp only [Prod.map_apply, Prod.mk.injEq] at heq
        exact Nat.succ_ne_zero a heq.1

/-- C6: the enumeration of `store_cointegration_results` over `n` series
produces exactly `C(n,2)` candidate index pairs, no pair twice, and a pair
`(i, j)` occurs precisely when `i < j < n` — each unordered pair exactly
once, with the positionally earlier series as base. -/
theorem pair_enumeration_spec (n : ℕ) :
    (pairsOf (List.range n)).length = n.choose 2 ∧
    (pairsOf (List.range n)).Nodup ∧
    (∀ i j : ℕ, (i, j) ∈ pairsOf (List.range n) ↔ i < j ∧ j < n) := by
  refine ⟨?_, pairsOf_range_nodup n, fun i j => pairsOf_range_mem n i j⟩
  rw [pairsOf_length]
  simp

/-- Witness for C6 at `n = 4`. -/
theorem pair_enumeration_spec_witness :
    (pairsOf (List.range 4)).length = Nat.choose 4 2 ∧
    ((1, 3) ∈ pairsOf (List.range 4) ↔ 1 < 3 ∧ 3 < 4) :=
  ⟨(pair_enumeration_spec 4).1, (pair_enumeration_spec 4).2.2 1 3⟩

/-- Bind on a successful `Except` value applies the continuation. -/
theorem exceptBind_ok {ε α β : Type} (a : α) (f : α → Except ε β) :
    (Except.ok a : Except ε α) >>= f = f a := rfl

/-- Bind on a raised `Except` value propagates the exception. -/
theorem exceptBind_error {ε α β : Type} (e : ε) (f : α → Except ε β) :
    (Except.error e : Except ε α) >>= f = Except.error e := rfl

/-- `pure` into `Except` is `Except.ok`. -/
theorem exceptPure {ε α : Type} (a : α) :
    (pure a : Except ε α) = Except.ok a := rfl

/-- `throw` into `Except` is `Except.error`. -/
theorem exceptThrow {ε α : Type} (e : ε) :
    (throw e : Except ε α) = Except.error e := rfl

/-- The Boolean bounds test on a numeric half-life, read back as rational
comparisons. -/
theorem boundsDiscard_num (hl : ℚ) :
    boundsDiscard (PFloat.num hl) = (decide (hl < 0) || decide (24 < hl)) := rfl

/-- C5: for a pair whose evaluation reaches the half-life bounds check with a
numeric half-life `hl`, the pair is emitted exactly when `0 ≤ hl ≤ 24`
(inclusive at both ends) and discarded exactly when `hl < 0` or `hl > 24`. -/
theorem half_life_bounds_spec (orc : Oracles) (b q : Market)
    (r : CointRes) (a : AdfRes) (hl : ℚ)
    (hc : orc.coint b.series q.series = Except.ok r)
    (hflag : calculate_cointegration r = 1)
    (ha : orc.adf (dropNone (calculate_hedge_ratio_and_spread b.series q.series).2)
      = Except.ok a)
    (hst : test_for_stationarity a = true)
    (hhl : orc.halfLife (dropNone (calculate_hedge_ratio_and_spread b.series q.series).2)
      = Except.ok (PFloat.num hl)) :
    (evalPair orc b q = Except.ok (some ⟨b.name, q.name, PFloat.num hl⟩)
      ↔ 0 ≤ hl ∧ hl ≤ 24) ∧
    (evalPair orc b q = Except.ok none ↔ hl < 0 ∨ 24 < hl) := by
  have key : evalPair orc b q =
      if boundsDiscard (PFloat.num hl) then Except.ok none
      else Except.ok (some ⟨b.name, q.name, PFloat.num hl⟩) := by
    unfold evalPair
    rw [hc, exceptBind_ok, hflag]
    rw [if_neg (by norm_num)]
    rw [ha, exceptBind_ok, hst]
    rw [if_neg (by norm_num)]
    rw [hhl, exceptBind_ok]
    by_cases hbb : boundsDiscard (PFloat.num hl) <;> simp [hbb, exceptPure] <;> rfl
  have hbiff : boundsDiscard (PFloat.num hl) = true ↔ (hl < 0 ∨ 24 < hl) := by
    rw [boundsDiscard_num]
    simp
  by_cases hbb : boundsDiscard (PFloat.num hl)
  · rw [key, if_pos hbb]
    have hor := hbiff.mp hbb
    constructor
    · constructor
      · intro hcontr
        simp at hcontr
      · rintro ⟨h0, h24⟩
        rcases hor with h | h <;> linarith
    · exact ⟨fun _ => hor, fun _ => rfl⟩
  · rw [key, if_neg hbb]
    have hnor : ¬(hl < 0 ∨ 24 < hl) := fun h => hbb (hbiff.mpr h)
    push_neg at hnor
    constructor
    · exact ⟨fun _ => hnor, fun _ => rfl⟩
    · constructor
      · intro hcontr
        simp at hcontr
      · intro hcon
        exact absurd (hbiff.mpr hcon) hbb

/-- Witness for C5: with a concrete oracle whose half-life is exactly 24,
the pair is accepted (the upper bound is inclusive). -/
theorem half_life_bounds_spec_witness :
    evalPair oracleHL24 mkA mkB
      = Except.ok (some ⟨"A", "B", PFloat.num 24⟩) :=
  (half_life_bounds_spec oracleHL24 mkA mkB passCoint passAdf 24 rfl
      (by norm_num [calculate_cointegration, passCoint]) rfl
      (by norm_num [test_for_stationarity, passAdf]) rfl).1.mpr (by norm_num)

/-- C10: a NaN half-life makes the bounds condition
`half_life < 0 or half_life > 24` false, so the pair is not discarded and a
row with a NaN half-life is emitted. -/
theorem nan_half_life_appended (orc : Oracles) (b q : Market)
    (r : CointRes) (a : AdfRes)
    (hc : orc.coint b.series q.series = Except.ok r)
    (hflag : calculate_cointegration r = 1)
    (ha : orc.adf (dropNone (calculate_hedge_ratio_and_spread b.series q.series).2)
      = Except.ok a)
    (hst : test_for_stationarity a = true)
    (hhl : orc.halfLife (dropNone (calculate_hedge_ratio_and_spread b.series q.series).2)
      = Except.ok PFloat.nan) :
    boundsDiscard PFloat.nan = false ∧
    evalPair orc b q = Except.ok (some ⟨b.name, q.name, PFloat.nan⟩) := by
  refine ⟨rfl, ?_⟩
  unfold evalPair
  rw [hc, exceptBind_ok, hflag]
  rw [if_neg (by norm_num)]
  rw [ha, exceptBind_ok, hst]
  rw [if_neg (by norm_num)]
  rw [hhl, exceptBind_ok]
  rw [if_neg (by simp [boundsDiscard, pfLt])]
  rfl

/-- Witness for C10 at a concrete oracle returning a NaN half-life. -/
theorem nan_half_life_appended_witness :
    boundsDiscard PFloat.nan = false ∧
    evalPair oracleHLnan mkA mkB = Except.ok (some ⟨"A", "B", PFloat.nan⟩) :=
  nan_half_life_appended oracleHLnan mkA mkB passCoint passAdf rfl
    (by norm_num [calculate_cointegration, passCoint]) rfl
    (by norm_num [test_for_stationarity, passAdf]) rfl

/-- An exception raised while evaluating one candidate pair propagates out
of the enumeration loop, provided every pair before it evaluated without
raising. -/
theorem evalAll_error_propagates (orc : Oracles) :
    ∀ (pre : List (Market × Market)) (b q : Market)
      (post : List (Market × Market)) (acc : List ScreeningResult)
      (e : PairErr),
      (∀ p ∈ pre, ∃ o, evalPair orc p.1 p.2 = Except.ok o) →
      evalPair orc b q = Except.error e →
      evalAll orc (pre ++ (b, q) :: post) acc = Except.error e := by
  intro pre
  induction pre with
  | nil =>
      intro b q post acc e _ herr
      show evalAll orc ((b, q) :: post) acc = Except.error e
      unfold evalAll
      rw [herr, exceptBind_error]
  | cons p pre ih =>
      intro b q post acc e hpre herr
      obtain ⟨pb, pq⟩ := p
      obtain ⟨o, ho⟩ := hpre (pb, pq) (List.mem_cons_self _ _)
      show evalAll orc ((pb, pq) :: (pre ++ (b, q) :: post)) acc = Except.error e
      unfold evalAll
      rw [ho, exceptBind_ok]
      have hpre' : ∀ p ∈ pre, ∃ o, evalPair orc p.1 p.2 = Except.ok o :=
        fun p hp => hpre p (List.mem_cons_of_mem _ hp)
      cases o with
      | none => exact ih b q post acc e hpre' herr
      | some x => exact ih b q post (acc ++ [x]) e hpre' herr

/-- C8 amended: a failure evaluating one candidate pair is **not** caught —
`store_cointegration_results` has no try/except, so the exception aborts the
whole run (pairs after the failing one are never evaluated and no report is
produced). -/
theorem pair_failure_aborts_run (orc : Oracles) (ms : List Market)
    (pre post : List (Market × Market)) (b q : Market) (e : PairErr)
    (hsplit : pairsOf ms = pre ++ (b, q) :: post)
    (hpre : ∀ p ∈ pre, ∃ o, evalPair orc p.1 p.2 = Except.ok o)
    (herr : evalPair orc b q = Except.error e) :
    store_cointegration_results orc ms = Except.error e := by
  unfold store_cointegration_results
  rw [hsplit, evalAll_error_propagates orc pre b q post [] e hpre herr,
    exceptBind_error]

/-- Witness for the amended C8: under `oracleFirstErr` the first candidate
pair of `[A, B, C]` raises and the whole run returns that error. -/
theorem pair_failure_aborts_run_witness :
    store_cointegration_results oracleFirstErr [mkA, mkB, mkC]
      = Except.error PairErr.insufficientData :=
  pair_failure_aborts_run oracleFirstErr [mkA, mkB, mkC] []
    [(mkA, mkC), (mkB, mkC)] mkA mkB PairErr.insufficientData rfl
    (by simp)
    (by norm_num [evalPair, oracleFirstErr, mkA, mkB, exceptBind_error])

/-- C8 counterexample: with three markets where only the first pair raises
and both remaining pairs would pass every filter, the run does not continue
past the failure — it returns the error, producing no report at all, instead
of discarding the bad pair and reporting the two good ones. -/
theorem pair_failure_counterexample :
    store_cointegration_results oracleFirstErr [mkA, mkB, mkC]
        = Except.error PairErr.insufficientData ∧
    ∀ out, store_cointegration_results oracleFirstErr [mkA, mkB, mkC]
        ≠ Except.ok out := by
  have h : store_cointegration_results oracleFirstErr [mkA, mkB, mkC]
      = Except.error PairErr.insufficientData := by
    show (evalAll oracleFirstErr
        [(mkA, mkB), (mkA, mkC), (mkB, mkC)] []) >>= _
      = Except.error PairErr.insufficientData
    have herr : evalPair oracleFirstErr mkA mkB
        = Except.error PairErr.insufficientData := by
      norm_num [evalPair, oracleFirstErr, mkA, mkB, exceptBind_error]
    unfold evalAll
    rw [herr, exceptBind_error, exceptBind_error]
  refine ⟨h, fun out hcontr => ?_⟩
  rw [h] at hcontr
  simp at hcontr

/-- C9: when no candidate pair meets the criteria the accumulated row list
is empty, `pd.DataFrame([])` has no `half_life` column, and
`sort_values(by="half_life")` raises `KeyError` — the run does not complete
with `"saved"`. -/
theorem empty_report_keyerror :
    store_cointegration_results oracleAllFail [mkA, mkB]
      = Except.error PairErr.keyError := by
  have hpair : evalPair oracleAllFail mkA mkB = Except.ok none := by
    unfold evalPair
    show (Except.ok failCoint) >>= _ = _
    rw [exceptBind_ok]
    rw [if_pos (by norm_num [calculate_cointegration, failCoint])]
    rfl
  show (evalAll oracleAllFail [(mkA, mkB)] []) >>= _
    = Except.error PairErr.keyError
  unfold evalAll
  rw [hpair, exceptBind_ok]
  show (evalAll oracleAllFail [] []) >>= _ = _
  unfold evalAll
  rw [exceptBind_ok]
  rfl

end PairsBot
